import Mathlib

/-!
Verification of the signal-generation / backtest / parameter-tuning core of
the crypto-streamlit application (src/app.py).

The price column of the input dataframe is modelled as a list of real
numbers.  A pandas column whose entries may be NaN (missing) is modelled as a
list of optional reals, with `none` playing the role of NaN; `fillna 0` is
modelled by replacing `none` with `0`.  Dataframe columns produced by
`pct_change`, `shift` and arithmetic on columns are modelled index-wise by
the functions below, each translated directly from the corresponding pandas
expression in src/app.py.
-/

noncomputable section

namespace CryptoApp

/-- The columns of the working dataframe.  `price` comes from the data
source; the remaining columns start absent (empty) and are filled in by
`add_signals` and `backtest`. -/
structure Frame where
  price : List ℝ := []
  ret : List (Option ℝ) := []
  momentum : List (Option ℝ) := []
  prob_up : List ℝ := []
  signal : List ℤ := []
  next_return : List (Option ℝ) := []
  strategy_return : List (Option ℝ) := []
  cumulative : List ℝ := []
deriving Inhabited

/-- Source: `series.pct_change(periods=w)` : entry `i` is `price[i]/price[i-w] - 1`
for `i ≥ w` and missing (NaN) for `i < w`. -/
def pctChange (w : ℕ) (ps : List ℝ) : List (Option ℝ) :=
  (List.range ps.length).map fun i =>
    if i < w then none else some (ps.getD i 0 / ps.getD (i - w) 0 - 1)

/-- The logistic squashing `1 / (1 + exp (-10 * m))` from line 38. -/
def logistic (m : ℝ) : ℝ := 1 / (1 + Real.exp (-10 * m))

/-- Source: `1 / (1 + np.exp (-10 * momentum.fillna(0)))`. -/
def probUp (momentum : List (Option ℝ)) : List ℝ :=
  momentum.map fun m => logistic (m.getD 0)

/-- The three sequential signal assignments of lines 40-42: initialize to 0,
overwrite with 1 where `prob_up > buy_thr`, then overwrite with -1 where
`prob_up < sell_thr`.  The later assignment wins. -/
def signalOf (buy_thr sell_thr : ℝ) (p : ℝ) : ℤ :=
  let s0 : ℤ := 0
  let s1 : ℤ := if p > buy_thr then 1 else s0
  let s2 : ℤ := if p < sell_thr then -1 else s1
  s2

/-- Source: `add_signals` (lines 34-43): works on a copy of the input frame and
fills the return, momentum, prob_up and signal columns. -/
def add_signals (ps : List ℝ) (window : ℕ) (buy_thr sell_thr : ℝ) : Frame :=
  let ret := pctChange 1 ps
  let momentum := pctChange window ps
  let prob := probUp momentum
  let signal := prob.map (signalOf buy_thr sell_thr)
  { price := ps, ret := ret, momentum := momentum, prob_up := prob,
    signal := signal }

/-- Source: `column.shift(1)` : entry `i` becomes entry `i-1`, entry 0 becomes
missing; the length is preserved. -/
def shift1 {α : Type} (l : List α) : List (Option α) :=
  (none :: l.map some).take l.length

/-- Source: `column.shift(-1)` on a column that may already contain missing values:
entry `i` becomes entry `i+1`, the last entry becomes missing. -/
def shiftm1 (l : List (Option ℝ)) : List (Option ℝ) :=
  match l with
  | [] => []
  | _ :: xs => xs ++ [none]

/-- NaN-propagating product of two possibly-missing values. -/
def mulOpt (a b : Option ℝ) : Option ℝ :=
  a.bind fun x => b.map fun y => x * y

/-- Source: `df.fillna(0)` on a column. -/
def fillna0 (l : List (Option ℝ)) : List ℝ := l.map fun o => o.getD 0

/-- Source: `df["signal"].shift(1) * df["return"]` (line 55 and line 82): the signal
column is cast to real, shifted by one and multiplied entrywise with the
return column; a missing factor makes the product missing. -/
def stratReturns (sig : List ℤ) (ret : List (Option ℝ)) : List (Option ℝ) :=
  List.zipWith (fun s r => mulOpt (s.map fun z => (z : ℝ)) r) (shift1 sig) ret

/-- Source: `column.cumprod()` with running accumulator `a`. -/
def cumprodAux (a : ℝ) : List ℝ → List ℝ
  | [] => []
  | x :: xs => (a * x) :: cumprodAux (a * x) xs

/-- Source: `column.cumprod()`. -/
def cumprod (l : List ℝ) : List ℝ := cumprodAux 1 l

/-- Source: `column.cummax()` with running accumulator `a`. -/
def cummaxAux (a : ℝ) : List ℝ → List ℝ
  | [] => []
  | x :: xs => max a x :: cummaxAux (max a x) xs

/-- Source: `column.cummax()`. -/
def cummax : List ℝ → List ℝ
  | [] => []
  | x :: xs => x :: cummaxAux x xs

/-- Source: `column.max()` : the maximum of a column, missing when it is empty. -/
def listMax : List ℝ → Option ℝ
  | [] => none
  | x :: xs => some (xs.foldl max x)

/-- Source: `((cum.cummax() - cum) / cum.cummax()).max()` (line 57); the max of an
empty column is missing. -/
def maxDrawdown (cum : List ℝ) : Option ℝ :=
  listMax (List.zipWith (fun m c => (m - c) / m) (cummax cum) cum)

/-- Source: `trades["next_return"] > 0` : a missing value compares as false. -/
def nrPosB (o : Option ℝ) : Bool :=
  match o with
  | none => false
  | some x => decide (0 < x)

/-- Source: `column.mean()` with pandas skipna semantics: missing entries are
dropped; the mean of an all-missing column is itself missing (NaN). -/
def meanSkipNA (l : List (Option ℝ)) : Option ℝ :=
  match l.filterMap id with
  | [] => none
  | x :: xs => some ((x :: xs).sum / ((x :: xs).length : ℝ))

/-- The summary dictionary returned by `backtest` (lines 59-64). -/
structure Summary where
  total_trades : ℕ
  win_rate : ℝ
  avg_next : Option ℝ
  max_dd : Option ℝ

/-- Source: `backtest` (lines 46-65): works on a copy, adds the next_return,
strategy_return and cumulative columns and computes the summary. -/
def backtest (df0 : Frame) : Summary × Frame :=
  let nr := shiftm1 (pctChange 1 df0.price)
  let df1 : Frame := { df0 with next_return := nr }
  let trades := (df1.signal.zip df1.next_return).filter fun t => decide (t.1 ≠ 0)
  let num_trades := trades.length
  let wins := (trades.filter fun t => nrPosB t.2).length
  let win_rate : ℝ := if num_trades > 0 then (wins : ℝ) / (num_trades : ℝ) else 0
  let avg_return : Option ℝ :=
    if num_trades > 0 then meanSkipNA (trades.map fun t => t.2) else some 0
  let strat := stratReturns df1.signal df1.ret
  let df2 : Frame := { df1 with strategy_return := strat }
  let cum := cumprod ((fillna0 strat).map fun x => 1 + x)
  let df3 : Frame := { df2 with cumulative := cum }
  let max_dd := maxDrawdown cum
  (⟨num_trades, win_rate, avg_return, max_dd⟩, df3)

/-- One grid-search combination. -/
structure ParameterSet where
  window : ℕ
  buy_thr : ℝ
  sell_thr : ℝ

/-- Source: `itertools.product(window_range, buy_range, sell_range)` in its fixed
enumeration order: window outer-most, buy_thr next, sell_thr inner-most. -/
def productList (wr : List ℕ) (br sr : List ℝ) : List ParameterSet :=
  wr.flatMap fun w => br.flatMap fun b => sr.map fun s => ⟨w, b, s⟩

/-- The body of one tuner trial (lines 73-83): recompute momentum, prob_up,
signal, return and strategy_return on a fresh copy of the base series and
take the product of `1 + strategy_return.fillna(0)`. -/
def trialReturn (ps : List ℝ) (c : ParameterSet) : ℝ :=
  let momentum := pctChange c.window ps
  let prob := probUp momentum
  let signal := prob.map (signalOf c.buy_thr c.sell_thr)
  let ret := pctChange 1 ps
  let strat := stratReturns signal ret
  ((fillna0 strat).map fun x => 1 + x).prod

/-- Lines 85-87: replace the best candidate when the trial return is
strictly greater.  The initial state `none` stands for
`(best_params, best_return) = (None, -inf)`, which every real trial value
strictly exceeds. -/
def tuneStep (ps : List ℝ) (best : Option (ParameterSet × ℝ)) (c : ParameterSet) :
    Option (ParameterSet × ℝ) :=
  let cum := trialReturn ps c
  match best with
  | none => some (c, cum)
  | some (p, r) => if cum > r then some (c, cum) else some (p, r)

/-- Source: `tune_parameters` (lines 68-89).  The pair `(none, none)` corresponds to
the untouched initial state `(None, -inf)`, returned when the grid is
empty. -/
def tune_parameters (ps : List ℝ) (wr : List ℕ) (br sr : List ℝ) :
    Option ParameterSet × Option ℝ :=
  let best := (productList wr br sr).foldl (tuneStep ps) none
  (best.map Prod.fst, best.map Prod.snd)

/-!
## Store model for the dataframe copies

Pandas dataframes are heap objects mutated in place by column assignment.
To state the frame property (the input frame is never mutated) we model the
heap explicitly as a list of frames; a dataframe variable is an index into
it.  `df.copy()` appends a fresh frame at the end of the heap, and every
in-place column assignment of src/app.py writes to that last, freshly
allocated cell.  The column contents reuse the columnwise translations
above.
-/

/-- Source: `df.copy()` : allocate a fresh copy of the frame at index `p` at the end
of the heap. -/
def heapCopy (st : List Frame) (p : ℕ) : List Frame := st ++ [st.getD p default]

/-- In-place column assignment on the most recently allocated frame. -/
def heapSetLast (st : List Frame) (f : Frame → Frame) : List Frame :=
  match st.getLast? with
  | none => st
  | some d => st.dropLast ++ [f d]

/-- Source: `add_signals` under the store model: copy the argument frame, then
assign the return, momentum, prob_up and signal columns of the copy.
Returns the updated heap and the index of the copy. -/
def add_signalsH (st : List Frame) (p : ℕ) (window : ℕ) (buy_thr sell_thr : ℝ) :
    List Frame × ℕ :=
  let st1 := heapCopy st p
  let st2 := heapSetLast st1 fun df => { df with ret := pctChange 1 df.price }
  let st3 := heapSetLast st2 fun df => { df with momentum := pctChange window df.price }
  let st4 := heapSetLast st3 fun df => { df with prob_up := probUp df.momentum }
  let st5 := heapSetLast st4 fun df =>
    { df with signal := df.prob_up.map (signalOf buy_thr sell_thr) }
  (st5, st.length)

/-- Source: `backtest` under the store model: copy the argument frame, then assign
the next_return, strategy_return and cumulative columns of the copy. -/
def backtestH (st : List Frame) (p : ℕ) : List Frame × ℕ :=
  let st1 := heapCopy st p
  let st2 := heapSetLast st1 fun df =>
    { df with next_return := shiftm1 (pctChange 1 df.price) }
  let st3 := heapSetLast st2 fun df =>
    { df with strategy_return := stratReturns df.signal df.ret }
  let st4 := heapSetLast st3 fun df =>
    { df with cumulative := cumprod ((fillna0 df.strategy_return).map fun x => 1 + x) }
  (st4, st.length)

/-- One grid-search trial under the store model (lines 73-82): `temp_df`
is a fresh copy of the base frame and all assignments go to it. -/
def tuneTrialH (st : List Frame) (p : ℕ) (c : ParameterSet) : List Frame :=
  let st1 := heapCopy st p
  let st2 := heapSetLast st1 fun df => { df with momentum := pctChange c.window df.price }
  let st3 := heapSetLast st2 fun df => { df with prob_up := probUp df.momentum }
  let st4 := heapSetLast st3 fun df =>
    { df with signal := df.prob_up.map (signalOf c.buy_thr c.sell_thr) }
  let st5 := heapSetLast st4 fun df => { df with ret := pctChange 1 df.price }
  let st6 := heapSetLast st5 fun df =>
    { df with strategy_return := stratReturns df.signal df.ret }
  st6

/-- The heap evolution of the whole grid search of `tune_parameters`: one
fresh copy per enumerated combination (the best-value bookkeeping touches
no frame). -/
def tuneH (st : List Frame) (p : ℕ) (wr : List ℕ) (br sr : List ℝ) : List Frame :=
  (productList wr br sr).foldl (fun acc c => tuneTrialH acc p c) st

/-! ## Basic lemmas about the store model -/

theorem length_heapCopy (st : List Frame) (p : ℕ) :
    (heapCopy st p).length = st.length + 1 := by
  simp [heapCopy]

theorem getElem?_heapCopy (st : List Frame) (p q : ℕ) (hq : q < st.length) :
    (heapCopy st p)[q]? = st[q]? :=
  List.getElem?_append_left hq

theorem length_heapSetLast (st : List Frame) (f : Frame → Frame) :
    (heapSetLast st f).length = st.length := by
  unfold heapSetLast
  cases h : st.getLast? with
  | none => rfl
  | some d =>
    have hne : st ≠ [] := by
      intro e
      rw [e] at h
      simp at h
    have hlen : 0 < st.length := List.length_pos.mpr hne
    simp [List.length_dropLast]
    omega

theorem getElem?_heapSetLast (st : List Frame) (f : Frame → Frame) (q : ℕ)
    (hq : q + 1 < st.length) : (heapSetLast st f)[q]? = st[q]? := by
  have hne : st ≠ [] := by
    intro e
    rw [e] at hq
    simp at hq
  have hd : st.getLast? = some (st.getLast hne) := List.getLast?_eq_getLast st hne
  have hdl : st.dropLast.length = st.length - 1 := List.length_dropLast st
  have hqd : q < st.dropLast.length := by omega
  unfold heapSetLast
  rw [hd]
  rw [List.getElem?_append_left hqd]
  conv_rhs => rw [← List.dropLast_append_getLast hne]
  rw [List.getElem?_append_left hqd]

/-! ## Columnwise lemmas -/

theorem length_pctChange (w : ℕ) (ps : List ℝ) :
    (pctChange w ps).length = ps.length := by
  simp [pctChange]

theorem getElem?_pctChange (w : ℕ) (ps : List ℝ) (i : ℕ) (hi : i < ps.length) :
    (pctChange w ps)[i]? =
      some (if i < w then none else some (ps.getD i 0 / ps.getD (i - w) 0 - 1)) := by
  rw [pctChange, List.getElem?_map, List.getElem?_range hi]
  rfl

theorem length_probUp (m : List (Option ℝ)) : (probUp m).length = m.length := by
  simp [probUp]

theorem getElem?_probUp (m : List (Option ℝ)) (i : ℕ) :
    (probUp m)[i]? = (m[i]?).map fun o => logistic (o.getD 0) := by
  simp [probUp]

theorem add_signals_price (ps : List ℝ) (w : ℕ) (b s : ℝ) :
    (add_signals ps w b s).price = ps := rfl

theorem add_signals_ret (ps : List ℝ) (w : ℕ) (b s : ℝ) :
    (add_signals ps w b s).ret = pctChange 1 ps := rfl

theorem add_signals_momentum (ps : List ℝ) (w : ℕ) (b s : ℝ) :
    (add_signals ps w b s).momentum = pctChange w ps := rfl

theorem add_signals_prob (ps : List ℝ) (w : ℕ) (b s : ℝ) :
    (add_signals ps w b s).prob_up = probUp (pctChange w ps) := rfl

theorem add_signals_signal (ps : List ℝ) (w : ℕ) (b s : ℝ) :
    (add_signals ps w b s).signal =
      (probUp (pctChange w ps)).map (signalOf b s) := rfl

theorem length_shift1 {α : Type} (l : List α) : (shift1 l).length = l.length := by
  simp [shift1]

theorem getElem?_shift1_zero {α : Type} (l : List α) (h : l ≠ []) :
    (shift1 l)[0]? = some none := by
  cases l with
  | nil => exact absurd rfl h
  | cons x xs => simp [shift1, List.take_succ_cons]

theorem getElem?_shift1_succ {α : Type} (l : List α) (i : ℕ) (v : α)
    (h : i + 1 < l.length) (hv : l[i]? = some v) :
    (shift1 l)[i + 1]? = some (some v) := by
  rw [shift1, List.getElem?_take, if_pos h, List.getElem?_cons_succ,
    List.getElem?_map, hv]
  rfl

theorem length_shiftm1 (l : List (Option ℝ)) : (shiftm1 l).length = l.length := by
  cases l <;> simp [shiftm1]

theorem getElem?_shiftm1 (l : List (Option ℝ)) (i : ℕ) (h : i + 1 < l.length) :
    (shiftm1 l)[i]? = l[i + 1]? := by
  cases l with
  | nil => simp at h
  | cons x xs =>
    have hx : i < xs.length := by
      simp at h
      omega
    rw [shiftm1, List.getElem?_append_left hx, List.getElem?_cons_succ]

theorem getLast?_shiftm1 (l : List (Option ℝ)) (h : l ≠ []) :
    (shiftm1 l).getLast? = some none := by
  cases l with
  | nil => exact absurd rfl h
  | cons x xs => rw [shiftm1, List.getLast?_concat]

theorem length_stratReturns (sig : List ℤ) (ret : List (Option ℝ)) :
    (stratReturns sig ret).length = min sig.length ret.length := by
  rw [stratReturns, List.length_zipWith, length_shift1]

theorem getElem?_stratReturns_zero (sig : List ℤ) (ret : List (Option ℝ))
    (hs : sig ≠ []) (hr : ret ≠ []) : (stratReturns sig ret)[0]? = some none := by
  rw [stratReturns, List.getElem?_zipWith', getElem?_shift1_zero sig hs]
  cases ret with
  | nil => exact absurd rfl hr
  | cons y ys => simp [mulOpt]

theorem getElem?_stratReturns_succ (sig : List ℤ) (ret : List (Option ℝ)) (i : ℕ)
    (z : ℤ) (o : Option ℝ) (h1 : sig[i]? = some z) (h2 : ret[i + 1]? = some o)
    (hlen : i + 1 < sig.length) :
    (stratReturns sig ret)[i + 1]? = some (o.map fun y => (z : ℝ) * y) := by
  rw [stratReturns, List.getElem?_zipWith', getElem?_shift1_succ sig i z hlen h1, h2]
  simp [mulOpt]

theorem length_cumprodAux (l : List ℝ) (a : ℝ) : (cumprodAux a l).length = l.length := by
  induction l generalizing a with
  | nil => rfl
  | cons x xs ih => simp [cumprodAux, ih]

theorem getElem?_cumprodAux (l : List ℝ) (a : ℝ) (i : ℕ) (h : i < l.length) :
    (cumprodAux a l)[i]? = some (a * (l.take (i + 1)).prod) := by
  induction l generalizing a i with
  | nil => simp at h
  | cons x xs ih =>
    cases i with
    | zero => simp [cumprodAux, List.take_succ_cons]
    | succ j =>
      have hj : j < xs.length := by
        simp at h
        omega
      simp only [cumprodAux, List.getElem?_cons_succ]
      rw [ih (a * x) j hj, List.take_succ_cons, List.prod_cons, mul_assoc]

theorem getLast?_cumprodAux (l : List ℝ) (a : ℝ) (h : l ≠ []) :
    (cumprodAux a l).getLast? = some (a * l.prod) := by
  induction l generalizing a with
  | nil => exact absurd rfl h
  | cons x xs ih =>
    cases xs with
    | nil => simp [cumprodAux]
    | cons y ys =>
      have ihy := ih (a * x) (List.cons_ne_nil y ys)
      simp only [cumprodAux] at ihy ⊢
      rw [List.getLast?_cons_cons, ihy]
      simp [List.prod_cons, mul_assoc]

/-! ## The logistic transform and the signal assignment -/

theorem logistic_pos (m : ℝ) : 0 < logistic m := by
  unfold logistic
  have h := Real.exp_pos (-10 * m)
  positivity

theorem logistic_lt_one (m : ℝ) : logistic m < 1 := by
  unfold logistic
  have h := Real.exp_pos (-10 * m)
  rw [div_lt_one (by linarith)]
  linarith

theorem logistic_zero : logistic 0 = 1 / 2 := by
  unfold logistic
  norm_num [Real.exp_zero]

/-- The three sequential assignments of lines 40-42 collapse to a single
conditional in which the sell branch is tested first: the -1 assignment is
applied last, so it wins wherever its condition holds. -/
theorem signalOf_eq (b s p : ℝ) :
    signalOf b s p = if p < s then -1 else if p > b then 1 else 0 := rfl

/-! ## Named projections of backtest -/

/-- Source: `df["price"].pct_change().shift(-1)` (line 48). -/
def nextReturnCol (df : Frame) : List (Option ℝ) := shiftm1 (pctChange 1 df.price)

/-- The (signal, next_return) rows of `df[df["signal"] != 0]` (line 49). -/
def tradesOf (df : Frame) : List (ℤ × Option ℝ) :=
  (df.signal.zip (nextReturnCol df)).filter fun t => decide (t.1 ≠ 0)

/-- Source: `len(trades[trades["next_return"] > 0])` (line 51). -/
def winsOf (df : Frame) : ℕ := ((tradesOf df).filter fun t => nrPosB t.2).length

/-- The cumulative column of line 56. -/
def cumulativeCol (df : Frame) : List ℝ :=
  cumprod ((fillna0 (stratReturns df.signal df.ret)).map fun x => 1 + x)

theorem backtest_price (df : Frame) : (backtest df).2.price = df.price := rfl

theorem backtest_signal (df : Frame) : (backtest df).2.signal = df.signal := rfl

theorem backtest_ret (df : Frame) : (backtest df).2.ret = df.ret := rfl

theorem backtest_next_return (df : Frame) :
    (backtest df).2.next_return = nextReturnCol df := rfl

theorem backtest_strategy_return (df : Frame) :
    (backtest df).2.strategy_return = stratReturns df.signal df.ret := rfl

theorem backtest_cumulative (df : Frame) :
    (backtest df).2.cumulative = cumulativeCol df := rfl

theorem backtest_total_trades (df : Frame) :
    (backtest df).1.total_trades = (tradesOf df).length := rfl

theorem backtest_win_rate (df : Frame) :
    (backtest df).1.win_rate =
      if 0 < (tradesOf df).length
      then (winsOf df : ℝ) / ((tradesOf df).length : ℝ) else 0 := rfl

theorem backtest_avg_next (df : Frame) :
    (backtest df).1.avg_next =
      if 0 < (tradesOf df).length
      then meanSkipNA ((tradesOf df).map fun t => t.2) else some 0 := rfl

theorem backtest_max_dd (df : Frame) :
    (backtest df).1.max_dd = maxDrawdown (cumulativeCol df) := rfl

/-! ## The grid enumeration and the cumulative product -/

theorem mem_productList (wr : List ℕ) (br sr : List ℝ) (c : ParameterSet) :
    c ∈ productList wr br sr ↔
      c.window ∈ wr ∧ c.buy_thr ∈ br ∧ c.sell_thr ∈ sr := by
  cases c with
  | mk w b s =>
    simp only [productList, List.mem_flatMap, List.mem_map, ParameterSet.mk.injEq]
    constructor
    · rintro ⟨w0, hw, b0, hb, s0, hs, rfl, rfl, rfl⟩
      exact ⟨hw, hb, hs⟩
    · rintro ⟨hw, hb, hs⟩
      exact ⟨w, hw, b, hb, s, hs, rfl, rfl, rfl⟩

theorem length_fillna0 (l : List (Option ℝ)) : (fillna0 l).length = l.length := by
  simp [fillna0]

theorem cumprod_getLast? (l : List ℝ) (h : l ≠ []) :
    (cumprod l).getLast? = some l.prod := by
  rw [cumprod, getLast?_cumprodAux l 1 h, one_mul]

theorem length_cumprod (l : List ℝ) : (cumprod l).length = l.length :=
  length_cumprodAux l 1

theorem getElem?_cumprod (l : List ℝ) (i : ℕ) (h : i < l.length) :
    (cumprod l)[i]? = some ((l.take (i + 1)).prod) := by
  rw [cumprod, getElem?_cumprodAux l 1 i h, one_mul]

theorem length_add_signals_signal (ps : List ℝ) (w : ℕ) (b s : ℝ) :
    (add_signals ps w b s).signal.length = ps.length := by
  rw [add_signals_signal, List.length_map, length_probUp, length_pctChange]

theorem length_add_signals_ret (ps : List ℝ) (w : ℕ) (b s : ℝ) :
    (add_signals ps w b s).ret.length = ps.length := by
  rw [add_signals_ret, length_pctChange]

theorem length_cumulativeCol (ps : List ℝ) (w : ℕ) (b s : ℝ) :
    (cumulativeCol (add_signals ps w b s)).length = ps.length := by
  rw [cumulativeCol, length_cumprod, List.length_map, length_fillna0,
    length_stratReturns, length_add_signals_signal, length_add_signals_ret]
  omega

/-- Re-running the signal pipeline and the cumulative product with given
parameters reproduces the tuner objective: the last entry of the backtest
cumulative column is exactly the trial value of `tune_parameters`. -/
theorem cumulative_getLast?_eq_trialReturn (ps : List ℝ) (w : ℕ) (b s : ℝ)
    (h : ps ≠ []) :
    (backtest (add_signals ps w b s)).2.cumulative.getLast? =
      some (trialReturn ps ⟨w, b, s⟩) := by
  rw [backtest_cumulative, cumulativeCol, cumprod_getLast?]
  · rfl
  · apply List.ne_nil_of_length_pos
    rw [List.length_map, length_fillna0, length_stratReturns,
      length_add_signals_signal, length_add_signals_ret]
    have := List.length_pos.mpr h
    omega

/-! ## The tuner fold keeps the earliest strict maximum -/

theorem foldl_tuneStep_first_argmax (ps : List ℝ) (L : List ParameterSet) :
    ∀ p : ParameterSet,
      ∃ q L1 L2, p :: L = L1 ++ q :: L2 ∧
        L.foldl (tuneStep ps) (some (p, trialReturn ps p)) =
          some (q, trialReturn ps q) ∧
        (∀ x ∈ L1, trialReturn ps x < trialReturn ps q) ∧
        (∀ x ∈ L2, trialReturn ps x ≤ trialReturn ps q) := by
  induction L with
  | nil =>
    intro p
    exact ⟨p, [], [], rfl, rfl, by simp, by simp⟩
  | cons x xs ih =>
    intro p
    by_cases hc : trialReturn ps p < trialReturn ps x
    · have hstep : tuneStep ps (some (p, trialReturn ps p)) x =
          some (x, trialReturn ps x) := by
        simp [tuneStep, hc]
      obtain ⟨q, L1, L2, hdec, hfold, h1, h2⟩ := ih x
      refine ⟨q, p :: L1, L2, ?_, ?_, ?_, h2⟩
      · rw [List.cons_append, ← hdec]
      · rw [List.foldl_cons, hstep]
        exact hfold
      · intro y hy
        rcases List.mem_cons.mp hy with hy | hy
        · have hxq : trialReturn ps x ≤ trialReturn ps q := by
            cases L1 with
            | nil =>
              injection hdec with e1 _
              exact le_of_eq (by rw [e1])
            | cons a as =>
              injection hdec with e1 _
              exact le_of_lt (h1 x (e1 ▸ List.mem_cons_self a as))
          rw [hy]
          exact lt_of_lt_of_le hc hxq
        · exact h1 y hy
    · have hstep : tuneStep ps (some (p, trialReturn ps p)) x =
          some (p, trialReturn ps p) := by
        simp [tuneStep, hc]
      obtain ⟨q, L1, L2, hdec, hfold, h1, h2⟩ := ih p
      cases L1 with
      | nil =>
        injection hdec with e1 e2
        refine ⟨q, [], x :: L2, ?_, ?_, by simp, ?_⟩
        · rw [List.nil_append, ← e1, e2]
        · rw [List.foldl_cons, hstep]
          exact hfold
        · intro y hy
          rcases List.mem_cons.mp hy with hy | hy
          · rw [hy, ← e1]
            exact not_lt.mp hc
          · exact h2 y hy
      | cons a as =>
        injection hdec with e1 e2
        refine ⟨q, p :: x :: as, L2, ?_, ?_, ?_, h2⟩
        · rw [e2]
          rfl
        · rw [List.foldl_cons, hstep]
          exact hfold
        · intro y hy
          have hpq : trialReturn ps p < trialReturn ps q :=
            h1 a (List.mem_cons_self a as) |>.trans_le' (le_of_eq (by rw [e1]))
          rcases List.mem_cons.mp hy with hy | hy
          · rw [hy]
            exact hpq
          · rcases List.mem_cons.mp hy with hy | hy
            · rw [hy]
              exact lt_of_le_of_lt (not_lt.mp hc) hpq
            · exact h1 y (List.mem_cons_of_mem a hy)

/-! ## Claim theorems -/

/-- Claim C2: signal[i] is initialized to 0, set to +1 where
prob_up[i] > buy_thr, then set to -1 where prob_up[i] < sell_thr, the second
assignment overwriting the first; in particular whenever buy_thr < sell_thr
and prob_up[i] lies strictly between them, the resulting signal[i] is -1. -/
theorem sell_assignment_precedence (ps : List ℝ) (w : ℕ) (b s : ℝ) (i : ℕ)
    (p : ℝ) (hp : (add_signals ps w b s).prob_up[i]? = some p) :
    (add_signals ps w b s).signal[i]? =
      some (if p < s then -1 else if p > b then 1 else 0)
    ∧ (b < s → b < p → p < s → (add_signals ps w b s).signal[i]? = some (-1)) := by
  have hsig : (add_signals ps w b s).signal[i]? = some (signalOf b s p) := by
    rw [add_signals_signal, List.getElem?_map]
    rw [add_signals_prob] at hp
    rw [hp]
    rfl
  constructor
  · rw [hsig, signalOf_eq]
  · intro hbs hbp hps
    rw [hsig, signalOf_eq, if_pos hps]

/-- Witness for C2 at the series [1, 1] with window 1, buy_thr 0.3 and
sell_thr 0.7: prob_up[0] = 1/2 lies between the inverted thresholds and the
resulting signal is -1. -/
theorem sell_assignment_precedence_witness :
    (add_signals [1, 1] 1 (3 / 10) (7 / 10)).signal[0]? = some (-1) :=
  (sell_assignment_precedence [1, 1] 1 (3 / 10) (7 / 10) 0 (logistic 0) rfl).2
    (by norm_num) (by rw [logistic_zero]; norm_num)
    (by rw [logistic_zero]; norm_num)

/-- Claim C9: every prob_up entry equals the logistic squashing of the
(zero-substituted) momentum and lies strictly inside (0, 1). -/
theorem prob_up_mem_Ioo (ps : List ℝ) (w : ℕ) (b s : ℝ) (i : ℕ) (p : ℝ)
    (hp : (add_signals ps w b s).prob_up[i]? = some p) : 0 < p ∧ p < 1 := by
  rw [add_signals_prob, getElem?_probUp] at hp
  cases hmap : (pctChange w ps)[i]? with
  | none =>
    rw [hmap] at hp
    simp at hp
  | some m =>
    rw [hmap] at hp
    simp only [Option.map_some'] at hp
    injection hp with hp
    rw [← hp]
    exact ⟨logistic_pos _, logistic_lt_one _⟩

/-- Witness for C9 at the series [2] with window 3: prob_up[0] = logistic 0
is strictly between 0 and 1. -/
theorem prob_up_mem_Ioo_witness : 0 < logistic 0 ∧ logistic 0 < 1 :=
  prob_up_mem_Ioo [2] 3 0 0 0 (logistic 0) rfl

/-- Claim C4: strategy_return[i] = signal[i-1] * return[i] for i ≥ 1,
strategy_return[0] is missing (treated as 0 by the fillna step), the
cumulative column is the prefix product of 1 + strategy_return with missing
values substituted by 0, and consequently cumulative[0] = 1. -/
theorem backtest_lag_and_anchor (ps : List ℝ) (w : ℕ) (b s : ℝ) :
    (∀ i, 1 ≤ i → i < ps.length →
      ∃ r, (add_signals ps w b s).ret[i]? = some (some r) ∧
        (backtest (add_signals ps w b s)).2.strategy_return[i]? =
          some (some (((add_signals ps w b s).signal.getD (i - 1) 0 : ℝ) * r)))
    ∧ (ps ≠ [] →
        (backtest (add_signals ps w b s)).2.strategy_return[0]? = some none)
    ∧ (∀ i, i < ps.length →
        (backtest (add_signals ps w b s)).2.cumulative[i]? =
          some ((((fillna0 ((backtest (add_signals ps w b s)).2.strategy_return)).map
            fun x => 1 + x).take (i + 1)).prod))
    ∧ (ps ≠ [] →
        (backtest (add_signals ps w b s)).2.cumulative[0]? = some 1) := by
  have hsiglen := length_add_signals_signal ps w b s
  have hretlen := length_add_signals_ret ps w b s
  have hstratlen : (stratReturns (add_signals ps w b s).signal
      (add_signals ps w b s).ret).length = ps.length := by
    rw [length_stratReturns, hsiglen, hretlen]
    omega
  refine ⟨?_, ?_, ?_, ?_⟩
  · intro i h1 h2
    obtain ⟨j, rfl⟩ : ∃ j, i = j + 1 := ⟨i - 1, by omega⟩
    have hj : j < (add_signals ps w b s).signal.length := by omega
    have hz : (add_signals ps w b s).signal[j]? =
        some ((add_signals ps w b s).signal.getD j 0) := by
      rw [List.getElem?_eq_getElem hj, List.getD_eq_getElem?_getD,
        List.getElem?_eq_getElem hj]
      rfl
    have hr : (add_signals ps w b s).ret[j + 1]? =
        some (some (ps.getD (j + 1) 0 / ps.getD j 0 - 1)) := by
      rw [add_signals_ret, getElem?_pctChange 1 ps (j + 1) h2]
      simp
    refine ⟨ps.getD (j + 1) 0 / ps.getD j 0 - 1, hr, ?_⟩
    rw [backtest_strategy_return,
      getElem?_stratReturns_succ ((add_signals ps w b s).signal)
        ((add_signals ps w b s).ret) j ((add_signals ps w b s).signal.getD j 0)
        (some (ps.getD (j + 1) 0 / ps.getD j 0 - 1)) hz hr (by omega)]
    simp
  · intro hne
    rw [backtest_strategy_return]
    apply getElem?_stratReturns_zero
    · apply List.ne_nil_of_length_pos
      rw [hsiglen]
      exact List.length_pos.mpr hne
    · apply List.ne_nil_of_length_pos
      rw [hretlen]
      exact List.length_pos.mpr hne
  · intro i hi
    rw [backtest_cumulative, cumulativeCol, backtest_strategy_return,
      getElem?_cumprod]
    rw [List.length_map, length_fillna0, hstratlen]
    exact hi
  · intro hne
    have hlpos : 0 < ps.length := List.length_pos.mpr hne
    have hstratne : stratReturns (add_signals ps w b s).signal
        (add_signals ps w b s).ret ≠ [] := by
      apply List.ne_nil_of_length_pos
      omega
    obtain ⟨a, tl, hsr⟩ := List.exists_cons_of_ne_nil hstratne
    have h0 : (stratReturns (add_signals ps w b s).signal
        (add_signals ps w b s).ret)[0]? = some none := by
      apply getElem?_stratReturns_zero
      · apply List.ne_nil_of_length_pos
        omega
      · apply List.ne_nil_of_length_pos
        omega
    rw [hsr] at h0
    have ha : a = none := by
      simp at h0
      exact h0
    rw [backtest_cumulative, cumulativeCol, hsr, ha]
    simp [fillna0, cumprod, cumprodAux]

/-- Witness for C4 at the series [1, 2]: the cumulative column starts at 1. -/
theorem backtest_lag_and_anchor_witness :
    (backtest (add_signals [1, 2] 1 0 0)).2.cumulative[0]? = some 1 :=
  (backtest_lag_and_anchor [1, 2] 1 0 0).2.2.2 (by simp)

/-- Counterexample to claim C7 as stated: with the series [1], window 2 ≥
length and thresholds buy_thr = sell_thr = 0, index 0 < window receives
signal 1, not 0 (the substituted momentum gives prob_up = 1/2 > buy_thr). -/
theorem oversized_window_counterexample :
    (add_signals [1] 2 0 0).signal[0]? = some 1 := by
  have h : (add_signals [1] 2 0 0).signal[0]? =
      some (signalOf 0 0 (logistic 0)) := rfl
  have h1 : ¬ logistic 0 < 0 := by
    rw [logistic_zero]
    norm_num
  have h2 : logistic 0 > 0 := by
    rw [logistic_zero]
    norm_num
  rw [h, signalOf_eq, if_neg h1, if_pos h2]

/-- Claim C7 (amended): for window ≥ series length add_signals is total
(the signal column has the length of the input), every momentum entry is
missing, and — provided sell_thr ≤ 1/2 ≤ buy_thr, as with the defaults
0.6/0.4 and every grid value — every index receives signal 0 via the
missing-momentum substitution. -/
theorem oversized_window (ps : List ℝ) (w : ℕ) (b s : ℝ)
    (hw : ps.length ≤ w) (hb : 1 / 2 ≤ b) (hs : s ≤ 1 / 2) :
    (add_signals ps w b s).signal.length = ps.length
    ∧ (∀ i, i < ps.length → (add_signals ps w b s).momentum[i]? = some none)
    ∧ (∀ i, i < ps.length → (add_signals ps w b s).signal[i]? = some 0) := by
  refine ⟨length_add_signals_signal ps w b s, ?_, ?_⟩
  · intro i hi
    rw [add_signals_momentum, getElem?_pctChange w ps i hi, if_pos (by omega)]
  · intro i hi
    rw [add_signals_signal, List.getElem?_map, getElem?_probUp,
      getElem?_pctChange w ps i hi, if_pos (by omega)]
    simp only [Option.map_some', Option.getD_none]
    rw [signalOf_eq, logistic_zero, if_neg (not_lt.mpr hs), if_neg (not_lt.mpr hb)]

/-- Witness for the amended C7 at the series [1] with window 1 = length and
thresholds 1/2: the only index receives signal 0. -/
theorem oversized_window_witness :
    (add_signals [1] 1 (1 / 2) (1 / 2)).signal[0]? = some 0 :=
  (oversized_window [1] 1 (1 / 2) (1 / 2) (by simp) le_rfl le_rfl).2.2 0 (by simp)

/-- Claim C5: tune_parameters enumerates the cartesian product of the three
ranges in their declared order (window outer-most, buy_thr next, sell_thr
inner-most — the definition of `productList`), updates the best only on a
strictly greater trial value, and returns the earliest-enumerated
maximiser: everything enumerated before the returned combination evaluates
strictly below it and everything after evaluates no higher.  Being a pure
function of the series and grids, a second run returns the same pair. -/
theorem tuner_first_argmax (ps : List ℝ) (wr : List ℕ) (br sr : List ℝ)
    (hne : productList wr br sr ≠ []) :
    ∃ q L1 L2, productList wr br sr = L1 ++ q :: L2 ∧
      tune_parameters ps wr br sr = (some q, some (trialReturn ps q)) ∧
      (∀ x ∈ L1, trialReturn ps x < trialReturn ps q) ∧
      (∀ x ∈ L2, trialReturn ps x ≤ trialReturn ps q) := by
  obtain ⟨c, rest, hL⟩ := List.exists_cons_of_ne_nil hne
  obtain ⟨q, L1, L2, hdec, hfold, h1, h2⟩ := foldl_tuneStep_first_argmax ps rest c
  refine ⟨q, L1, L2, ?_, ?_, h1, h2⟩
  · rw [hL, hdec]
  · unfold tune_parameters
    rw [hL, List.foldl_cons]
    have hstep0 : tuneStep ps none c = some (c, trialReturn ps c) := rfl
    rw [hstep0, hfold]
    rfl

/-- Witness for C5 on the empty series with singleton grids. -/
theorem tuner_first_argmax_witness :
    ∃ q L1 L2, productList [2] [1] [1] = L1 ++ q :: L2 ∧
      tune_parameters [] [2] [1] [1] = (some q, some (trialReturn [] q)) ∧
      (∀ x ∈ L1, trialReturn [] x < trialReturn [] q) ∧
      (∀ x ∈ L2, trialReturn [] x ≤ trialReturn [] q) :=
  tuner_first_argmax [] [2] [1] [1] (by simp [productList])

/-- Claim C1: on a non-empty positive series with non-empty grids the tuner
returns a ParameterSet drawn from the grids together with a value, and
re-running add_signals plus the backtest cumulative product with that
ParameterSet ends exactly at the returned value. -/
theorem tuner_round_trip (ps : List ℝ) (wr : List ℕ) (br sr : List ℝ)
    (hps : ps ≠ []) (hpos : ∀ x ∈ ps, 0 < x)
    (hwr : wr ≠ []) (hbr : br ≠ []) (hsr : sr ≠ []) :
    ∃ q r, tune_parameters ps wr br sr = (some q, some r) ∧
      q.window ∈ wr ∧ q.buy_thr ∈ br ∧ q.sell_thr ∈ sr ∧
      (backtest (add_signals ps q.window q.buy_thr q.sell_thr)).2.cumulative.getLast?
        = some r := by
  have hLne : productList wr br sr ≠ [] := by
    obtain ⟨w0, hw⟩ := List.exists_mem_of_ne_nil wr hwr
    obtain ⟨b0, hb⟩ := List.exists_mem_of_ne_nil br hbr
    obtain ⟨s0, hs⟩ := List.exists_mem_of_ne_nil sr hsr
    exact List.ne_nil_of_mem ((mem_productList wr br sr ⟨w0, b0, s0⟩).mpr ⟨hw, hb, hs⟩)
  obtain ⟨c, rest, hL⟩ := List.exists_cons_of_ne_nil hLne
  obtain ⟨q, L1, L2, hdec, hfold, h1, h2⟩ := foldl_tuneStep_first_argmax ps rest c
  have htune : tune_parameters ps wr br sr = (some q, some (trialReturn ps q)) := by
    unfold tune_parameters
    rw [hL, List.foldl_cons]
    have hstep0 : tuneStep ps none c = some (c, trialReturn ps c) := rfl
    rw [hstep0, hfold]
    rfl
  have hmemL : q ∈ productList wr br sr := by
    rw [hL, hdec]
    exact List.mem_append_right L1 (List.mem_cons_self q L2)
  have hmem := (mem_productList wr br sr q).mp hmemL
  refine ⟨q, trialReturn ps q, htune, hmem.1, hmem.2.1, hmem.2.2, ?_⟩
  exact cumulative_getLast?_eq_trialReturn ps q.window q.buy_thr q.sell_thr hps

/-- Witness for C1 at the series [1] with singleton grids. -/
theorem tuner_round_trip_witness :
    ∃ q r, tune_parameters [1] [1] [0] [0] = (some q, some r) ∧
      q.window ∈ [1] ∧ q.buy_thr ∈ [(0 : ℝ)] ∧ q.sell_thr ∈ [(0 : ℝ)] ∧
      (backtest (add_signals [1] q.window q.buy_thr q.sell_thr)).2.cumulative.getLast?
        = some r :=
  tuner_round_trip [1] [1] [0] [0] (by simp)
    (by
      intro x hx
      simp at hx
      subst hx
      norm_num)
    (by simp) (by simp) (by simp)

/-- Counterexample to claim C6 as stated: neither operation fails with a
validation error at the boundary.  tune_parameters with empty grids
completes and returns the untouched initial state, and add_signals with
window 0 < 1 returns an ordinary full-length frame. -/
theorem invalid_parameter_counterexample :
    tune_parameters [1] [] [] [] = (none, none)
    ∧ (add_signals [1] 0 (3 / 5) (2 / 5)).signal.length = 1 :=
  ⟨rfl, rfl⟩

/-- Claim C6 (amended): the code performs no boundary validation.
add_signals accepts window = 0 (< 1) unchanged and computes
momentum[i] = price[i]/price[i] - 1 for every index, and tune_parameters
with an empty window, buy or sell grid runs zero trials and returns the
initial state (None, -inf), modelled as (none, none); neither operation
signals an error. -/
theorem invalid_parameter_no_validation (ps : List ℝ) (b s : ℝ)
    (wr : List ℕ) (br sr : List ℝ) (i : ℕ) (hi : i < ps.length)
    (hempty : wr = [] ∨ br = [] ∨ sr = []) :
    (add_signals ps 0 b s).signal.length = ps.length
    ∧ (add_signals ps 0 b s).momentum[i]? =
        some (some (ps.getD i 0 / ps.getD i 0 - 1))
    ∧ tune_parameters ps wr br sr = (none, none) := by
  refine ⟨length_add_signals_signal ps 0 b s, ?_, ?_⟩
  · rw [add_signals_momentum, getElem?_pctChange 0 ps i hi]
    simp
  · have hL : productList wr br sr = [] := by
      rcases hempty with h | h | h
      · rw [h]
        rfl
      · rw [h]
        simp [productList]
      · rw [h]
        simp [productList]
    unfold tune_parameters
    rw [hL]
    rfl

/-- Witness for the amended C6: an empty window grid yields the sentinel
result, not an error. -/
theorem invalid_parameter_no_validation_witness :
    tune_parameters [1] [] [(1 : ℝ)] [(1 : ℝ)] = (none, none) :=
  (invalid_parameter_no_validation [1] 0 0 [] [1] [1] 0 (by simp) (Or.inl rfl)).2.2

/-! ## Helpers for the summary degeneracy claims -/

theorem le_foldl_max (l : List ℝ) (a : ℝ) : a ≤ l.foldl max a := by
  induction l generalizing a with
  | nil => exact le_rfl
  | cons x xs ih => exact le_trans (le_max_left a x) (ih (max a x))

theorem meanSkipNA_isSome (l : List (Option ℝ)) (v : ℝ)
    (hv : v ∈ l.filterMap id) : ∃ y, meanSkipNA l = some y := by
  cases hl : l.filterMap id with
  | nil =>
    rw [hl] at hv
    exact absurd hv (by simp)
  | cons a as =>
    refine ⟨(a :: as).sum / ((a :: as).length : ℝ), ?_⟩
    unfold meanSkipNA
    rw [hl]

/-- Counterexample to claim C3 as stated: at the series [1] with window 1,
buy_thr 1/4 and sell_thr 0 the only index gets a nonzero signal, so there
is one trade, but its next_return is undefined; the mean that backtest
stores in the summary is the mean of an all-missing column, i.e. NaN
(modelled as none), so the summary does contain a NaN. -/
theorem numeric_degeneracy_counterexample :
    (backtest (add_signals [1] 1 (1 / 4) 0)).1.total_trades = 1
    ∧ (backtest (add_signals [1] 1 (1 / 4) 0)).1.avg_next = none := by
  have hval : signalOf (1 / 4) 0 (logistic 0) = 1 := by
    rw [signalOf_eq, logistic_zero, if_neg (by norm_num), if_pos (by norm_num)]
  have hsig : (add_signals [1] 1 (1 / 4) 0).signal = [1] := by
    have h : (add_signals [1] 1 (1 / 4) 0).signal =
        [signalOf (1 / 4) 0 (logistic 0)] := rfl
    rw [h, hval]
  have htr : tradesOf (add_signals [1] 1 (1 / 4) 0) = [(1, none)] := by
    unfold tradesOf
    rw [hsig]
    rfl
  constructor
  · rw [backtest_total_trades, htr]
    rfl
  · rw [backtest_avg_next, htr]
    rfl

/-- Claim C3 (amended): for a non-empty series the summary is free of
NaN/Inf with a single exception: win_rate = 0 and avg_next_return = 0
whenever total_trades = 0, max_drawdown is always a defined value ≥ 0, and
avg_next_return can be missing (NaN) only when there is at least one trade
and every index before the last has signal 0 — i.e. all trades sit at the
final index, whose next_return is undefined. -/
theorem numeric_degeneracy (ps : List ℝ) (w : ℕ) (b s : ℝ) (hps : ps ≠ []) :
    ((backtest (add_signals ps w b s)).1.total_trades = 0 →
      (backtest (add_signals ps w b s)).1.win_rate = 0
      ∧ (backtest (add_signals ps w b s)).1.avg_next = some 0)
    ∧ (∃ d, (backtest (add_signals ps w b s)).1.max_dd = some d ∧ 0 ≤ d)
    ∧ ((backtest (add_signals ps w b s)).1.avg_next = none →
        (backtest (add_signals ps w b s)).1.total_trades ≠ 0
        ∧ ∀ i, i + 1 < ps.length → (add_signals ps w b s).signal.getD i 0 = 0) := by
  refine ⟨?_, ?_, ?_⟩
  · intro h0
    rw [backtest_total_trades] at h0
    constructor
    · rw [backtest_win_rate, h0]
      simp
    · rw [backtest_avg_next, h0]
      simp
  · have hcune : cumulativeCol (add_signals ps w b s) ≠ [] := by
      apply List.ne_nil_of_length_pos
      rw [length_cumulativeCol]
      exact List.length_pos.mpr hps
    obtain ⟨c0, ctl, hc⟩ := List.exists_cons_of_ne_nil hcune
    refine ⟨(List.zipWith (fun m c => (m - c) / m) (cummaxAux c0 ctl) ctl).foldl
      max ((c0 - c0) / c0), ?_, ?_⟩
    · rw [backtest_max_dd, hc]
      rfl
    · have h00 : (c0 - c0) / c0 = 0 := by rw [sub_self, zero_div]
      rw [← h00]
      exact le_foldl_max _ _
  · intro hnone
    by_cases htr : 0 < (tradesOf (add_signals ps w b s)).length
    · rw [backtest_avg_next, if_pos htr] at hnone
      constructor
      · rw [backtest_total_trades]
        omega
      · intro i hi1
        by_contra hsig0
        have hilen : i < (add_signals ps w b s).signal.length := by
          rw [length_add_signals_signal]
          omega
        have hsig_i : (add_signals ps w b s).signal[i]? =
            some ((add_signals ps w b s).signal.getD i 0) := by
          rw [List.getElem?_eq_getElem hilen, List.getD_eq_getElem?_getD,
            List.getElem?_eq_getElem hilen]
          rfl
        have hpclen : i + 1 < (pctChange 1 ps).length := by
          rw [length_pctChange]
          omega
        have hnr_i : (nextReturnCol (add_signals ps w b s))[i]? =
            some (some (ps.getD (i + 1) 0 / ps.getD (i + 1 - 1) 0 - 1)) := by
          have h1 : nextReturnCol (add_signals ps w b s) =
              shiftm1 (pctChange 1 ps) := rfl
          rw [h1, getElem?_shiftm1 _ i hpclen,
            getElem?_pctChange 1 ps (i + 1) (by omega), if_neg (by omega)]
        have hpair : ((add_signals ps w b s).signal.zip
            (nextReturnCol (add_signals ps w b s)))[i]? =
            some (((add_signals ps w b s).signal.getD i 0),
              some (ps.getD (i + 1) 0 / ps.getD (i + 1 - 1) 0 - 1)) :=
          List.getElem?_zip_eq_some.mpr ⟨hsig_i, hnr_i⟩
        have hmemzip := List.getElem?_mem hpair
        have htrade : (((add_signals ps w b s).signal.getD i 0),
            some (ps.getD (i + 1) 0 / ps.getD (i + 1 - 1) 0 - 1)) ∈
            tradesOf (add_signals ps w b s) := by
          apply List.mem_filter.mpr
          exact ⟨hmemzip, by simpa using hsig0⟩
        have hsnd := List.mem_map_of_mem (fun t => t.2) htrade
        have hfm : (ps.getD (i + 1) 0 / ps.getD (i + 1 - 1) 0 - 1) ∈
            ((tradesOf (add_signals ps w b s)).map fun t => t.2).filterMap id :=
          List.mem_filterMap.mpr ⟨_, hsnd, rfl⟩
        obtain ⟨y, hy⟩ := meanSkipNA_isSome _ _ hfm
        rw [hy] at hnone
        exact Option.noConfusion hnone
    · rw [backtest_avg_next, if_neg htr] at hnone
      exact Option.noConfusion hnone

/-- Witness for the amended C3 at the flat series [5] with buy_thr 1 and
sell_thr 0: there are no trades and the guarded summary values are 0. -/
theorem numeric_degeneracy_witness :
    (backtest (add_signals [5] 1 1 0)).1.win_rate = 0
    ∧ (backtest (add_signals [5] 1 1 0)).1.avg_next = some 0 := by
  have hval : signalOf 1 0 (logistic 0) = 0 := by
    rw [signalOf_eq, logistic_zero, if_neg (by norm_num), if_neg (by norm_num)]
  have hsig : (add_signals [5] 1 1 0).signal = [0] := by
    have h : (add_signals [5] 1 1 0).signal = [signalOf 1 0 (logistic 0)] := rfl
    rw [h, hval]
  have htr0 : (backtest (add_signals [5] 1 1 0)).1.total_trades = 0 := by
    rw [backtest_total_trades]
    unfold tradesOf
    rw [hsig]
    rfl
  exact (numeric_degeneracy [5] 1 1 0 (by simp)).1 htr0

/-- List surgery for the final-index trade: when the signal column ends in
a nonzero value and the next_return column ends in a missing value, the
last row is kept by the trade filter but rejected by the win filter. -/
theorem trades_last_helper (sig : List ℤ) (nr : List (Option ℝ))
    (hlen : sig.length = nr.length) (hne : sig ≠ [])
    (hnr_last : nr.getLast? = some none)
    (hsl : sig.getD (sig.length - 1) 0 ≠ 0) :
    ((sig.zip nr).filter fun t => decide (t.1 ≠ 0)).length
      = ((sig.zip nr).dropLast.filter fun t => decide (t.1 ≠ 0)).length + 1
    ∧ ((sig.zip nr).filter fun t => decide (t.1 ≠ 0)).filter (fun t => nrPosB t.2)
      = ((sig.zip nr).dropLast.filter fun t => decide (t.1 ≠ 0)).filter
          (fun t => nrPosB t.2)
    ∧ ((∀ i, i + 1 < sig.length → sig.getD i 0 = 0) →
        (sig.zip nr).dropLast.filter (fun t => decide (t.1 ≠ 0)) = []) := by
  have hpos : 0 < sig.length := List.length_pos.mpr hne
  have hsig_dec := List.dropLast_append_getLast hne
  have hnr_dec : nr.dropLast ++ [(none : Option ℝ)] = nr :=
    List.dropLast_append_getLast? none (Option.mem_def.mpr hnr_last)
  have hlen' : sig.dropLast.length = nr.dropLast.length := by
    rw [List.length_dropLast, List.length_dropLast, hlen]
  have hzip : sig.zip nr =
      sig.dropLast.zip nr.dropLast ++ [(sig.getLast hne, (none : Option ℝ))] := by
    conv_lhs => rw [← hsig_dec, ← hnr_dec]
    rw [List.zip_append hlen']
    rfl
  have hslv : decide (sig.getLast hne ≠ 0) = true := by
    have hge : sig.getLast hne = sig.getD (sig.length - 1) 0 := by
      rw [List.getLast_eq_getElem sig hne, List.getD_eq_getElem sig 0 (by omega)]
    rw [hge]
    simpa using hsl
  have hne0 : ¬sig.getLast hne = 0 := by simpa using hslv
  refine ⟨?_, ?_, ?_⟩
  · rw [hzip, List.filter_append, List.dropLast_concat]
    simp [List.filter_cons, hne0]
  · rw [hzip, List.filter_append, List.dropLast_concat]
    have hf1 : List.filter (fun t => decide (t.1 ≠ 0))
        [(sig.getLast hne, (none : Option ℝ))] = [(sig.getLast hne, none)] := by
      simp [List.filter_cons, hne0]
    rw [hf1, List.filter_append]
    have hf2 : List.filter (fun t => nrPosB t.2)
        [(sig.getLast hne, (none : Option ℝ))] = [] := rfl
    rw [hf2, List.append_nil]
  · intro hall
    rw [hzip, List.dropLast_concat, List.filter_eq_nil_iff]
    intro t ht
    obtain ⟨j, hj⟩ := List.mem_iff_getElem?.mp ht
    have hjlen : j < (sig.dropLast.zip nr.dropLast).length := by
      by_contra hc
      push_neg at hc
      rw [List.getElem?_eq_none hc] at hj
      exact Option.noConfusion hj
    have hjd : j < sig.dropLast.length := by
      rw [List.length_zip] at hjlen
      omega
    obtain ⟨hj1, _⟩ := List.getElem?_zip_eq_some.mp hj
    have hsig_j : sig[j]? = some t.1 := by
      conv_lhs => rw [← hsig_dec]
      rw [List.getElem?_append_left hjd]
      exact hj1
    have ht1 : t.1 = sig.getD j 0 := by
      rw [List.getD_eq_getElem?_getD, hsig_j]
      rfl
    have hjsucc : j + 1 < sig.length := by
      rw [List.length_dropLast] at hjd
      omega
    have ht0 : t.1 = 0 := by
      rw [ht1]
      exact hall j hjsucc
    simp [ht0]

/-- Claim C10: whenever the last index carries a nonzero signal it is
counted in total_trades but its undefined next_return can never make it a
win; when it carries the only nonzero signal, total_trades = 1 and
win_rate = 0. -/
theorem final_trade_asymmetry (ps : List ℝ) (w : ℕ) (b s : ℝ) (hps : ps ≠ [])
    (hlast : (add_signals ps w b s).signal.getD (ps.length - 1) 0 ≠ 0) :
    (backtest (add_signals ps w b s)).1.total_trades =
      (((add_signals ps w b s).signal.zip
        (nextReturnCol (add_signals ps w b s))).dropLast.filter
          fun t => decide (t.1 ≠ 0)).length + 1
    ∧ winsOf (add_signals ps w b s) =
        ((((add_signals ps w b s).signal.zip
          (nextReturnCol (add_signals ps w b s))).dropLast.filter
            fun t => decide (t.1 ≠ 0)).filter fun t => nrPosB t.2).length
    ∧ ((∀ i, i + 1 < ps.length → (add_signals ps w b s).signal.getD i 0 = 0) →
        (backtest (add_signals ps w b s)).1.total_trades = 1
        ∧ (backtest (add_signals ps w b s)).1.win_rate = 0) := by
  have hsl := length_add_signals_signal ps w b s
  have hnl : (nextReturnCol (add_signals ps w b s)).length = ps.length := by
    have h1 : nextReturnCol (add_signals ps w b s) = shiftm1 (pctChange 1 ps) := rfl
    rw [h1, length_shiftm1, length_pctChange]
  have hpos : 0 < ps.length := List.length_pos.mpr hps
  have hsig_ne : (add_signals ps w b s).signal ≠ [] := by
    apply List.ne_nil_of_length_pos
    omega
  have hpc_ne : pctChange 1 ps ≠ [] := by
    apply List.ne_nil_of_length_pos
    rw [length_pctChange]
    omega
  have hnr_last : (nextReturnCol (add_signals ps w b s)).getLast? = some none := by
    have h1 : nextReturnCol (add_signals ps w b s) = shiftm1 (pctChange 1 ps) := rfl
    rw [h1]
    exact getLast?_shiftm1 _ hpc_ne
  have hlast' : (add_signals ps w b s).signal.getD
      ((add_signals ps w b s).signal.length - 1) 0 ≠ 0 := by
    rw [hsl]
    exact hlast
  obtain ⟨h1, h2, h3⟩ := trades_last_helper (add_signals ps w b s).signal
    (nextReturnCol (add_signals ps w b s)) (by rw [hsl, hnl]) hsig_ne hnr_last hlast'
  refine ⟨?_, ?_, ?_⟩
  · rw [backtest_total_trades, tradesOf]
    exact h1
  · rw [winsOf, tradesOf, h2]
  · intro hall
    have hall' : ∀ i, i + 1 < (add_signals ps w b s).signal.length →
        (add_signals ps w b s).signal.getD i 0 = 0 := by
      rw [hsl]
      exact hall
    have hnil := h3 hall'
    have htrlen : (tradesOf (add_signals ps w b s)).length = 1 := by
      rw [tradesOf, h1, hnil]
      rfl
    have hwins : winsOf (add_signals ps w b s) = 0 := by
      rw [winsOf, tradesOf, h2, hnil]
      rfl
    constructor
    · rw [backtest_total_trades, htrlen]
    · rw [backtest_win_rate, hwins, htrlen]
      norm_num

/-- Witness for C10 at the series [2] with buy_thr 1/4 and sell_thr 0: the
single index trades on a missing next_return, so there is one trade and no
win. -/
theorem final_trade_asymmetry_witness :
    (backtest (add_signals [2] 1 (1 / 4) 0)).1.total_trades = 1
    ∧ (backtest (add_signals [2] 1 (1 / 4) 0)).1.win_rate = 0 := by
  have hval : signalOf (1 / 4) 0 (logistic 0) = 1 := by
    rw [signalOf_eq, logistic_zero, if_neg (by norm_num), if_pos (by norm_num)]
  have hlast : (add_signals [2] 1 (1 / 4) 0).signal.getD 0 0 ≠ 0 := by
    have h : (add_signals [2] 1 (1 / 4) 0).signal =
        [signalOf (1 / 4) 0 (logistic 0)] := rfl
    rw [h, hval]
    norm_num
  exact (final_trade_asymmetry [2] 1 (1 / 4) 0 (by simp) hlast).2.2
    (by
      intro i hi
      simp at hi)

theorem foldl_heapSetLast_preserves (fs : List (Frame → Frame)) :
    ∀ (st : List Frame) (q : ℕ), q + 1 < st.length →
      (fs.foldl heapSetLast st)[q]? = st[q]?
      ∧ (fs.foldl heapSetLast st).length = st.length := by
  induction fs with
  | nil =>
    intro st q h
    exact ⟨rfl, rfl⟩
  | cons f fs ih =>
    intro st q h
    have hl := length_heapSetLast st f
    obtain ⟨h1, h2⟩ := ih (heapSetLast st f) q (by omega)
    refine ⟨?_, by rw [List.foldl_cons, h2, hl]⟩
    rw [List.foldl_cons, h1, getElem?_heapSetLast st f q h]

theorem tuneTrialH_preserves (st : List Frame) (p : ℕ) (c : ParameterSet)
    (hp : p < st.length) :
    (tuneTrialH st p c)[p]? = st[p]?
    ∧ (tuneTrialH st p c).length = st.length + 1 := by
  have h := foldl_heapSetLast_preserves
    [fun df => { df with momentum := pctChange c.window df.price },
     fun df => { df with prob_up := probUp df.momentum },
     fun df => { df with signal := df.prob_up.map (signalOf c.buy_thr c.sell_thr) },
     fun df => { df with ret := pctChange 1 df.price },
     fun df => { df with strategy_return := stratReturns df.signal df.ret }]
    (heapCopy st p) p (by rw [length_heapCopy]; omega)
  constructor
  · calc (tuneTrialH st p c)[p]? = (heapCopy st p)[p]? := h.1
    _ = st[p]? := getElem?_heapCopy st p p hp
  · calc (tuneTrialH st p c).length = (heapCopy st p).length := h.2
    _ = st.length + 1 := length_heapCopy st p

theorem tuneH_foldl_preserves (p : ℕ) (L : List ParameterSet) :
    ∀ st : List Frame, p < st.length →
      (L.foldl (fun acc c => tuneTrialH acc p c) st)[p]? = st[p]? := by
  induction L with
  | nil =>
    intro st _
    rfl
  | cons c cs ih =>
    intro st hp
    obtain ⟨h1, h2⟩ := tuneTrialH_preserves st p c hp
    rw [List.foldl_cons, ih (tuneTrialH st p c) (by omega), h1]

/-- Claim C8: every operation works on a fresh copy: under the explicit
store model, add_signals, backtest and the whole grid search of
tune_parameters (one fresh copy per trial) leave the frame at the input
pointer untouched. -/
theorem frame_immutability (st : List Frame) (p : ℕ) (window : ℕ) (b s : ℝ)
    (wr : List ℕ) (br sr : List ℝ) (hp : p < st.length) :
    (add_signalsH st p window b s).1[p]? = st[p]?
    ∧ (backtestH st p).1[p]? = st[p]?
    ∧ (tuneH st p wr br sr)[p]? = st[p]? := by
  refine ⟨?_, ?_, ?_⟩
  · have h := foldl_heapSetLast_preserves
      [fun df => { df with ret := pctChange 1 df.price },
       fun df => { df with momentum := pctChange window df.price },
       fun df => { df with prob_up := probUp df.momentum },
       fun df => { df with signal := df.prob_up.map (signalOf b s) }]
      (heapCopy st p) p (by rw [length_heapCopy]; omega)
    calc (add_signalsH st p window b s).1[p]? = (heapCopy st p)[p]? := h.1
    _ = st[p]? := getElem?_heapCopy st p p hp
  · have h := foldl_heapSetLast_preserves
      [fun df => { df with next_return := shiftm1 (pctChange 1 df.price) },
       fun df => { df with strategy_return := stratReturns df.signal df.ret },
       fun df =>
        { df with cumulative := cumprod ((fillna0 df.strategy_return).map fun x => 1 + x) }]
      (heapCopy st p) p (by rw [length_heapCopy]; omega)
    calc (backtestH st p).1[p]? = (heapCopy st p)[p]? := h.1
    _ = st[p]? := getElem?_heapCopy st p p hp
  · exact tuneH_foldl_preserves p (productList wr br sr) st hp

/-- Witness for C8 on a one-frame heap. -/
theorem frame_immutability_witness :
    (add_signalsH [({ price := [1] } : Frame)] 0 1 0 0).1[0]? =
      [({ price := [1] } : Frame)][0]?
    ∧ (backtestH [({ price := [1] } : Frame)] 0).1[0]? =
      [({ price := [1] } : Frame)][0]?
    ∧ (tuneH [({ price := [1] } : Frame)] 0 [] [] [])[0]? =
      [({ price := [1] } : Frame)][0]? :=
  frame_immutability [{ price := [1] }] 0 1 0 0 [] [] [] (by simp)

end CryptoApp
